import Mathlib

/-!
Verification of the asset-resolution and executable-discovery core of the
coolclis repository (src/main.rs, src/unpack.rs).

The resolver (function find_appropriate_asset, src/main.rs) is embedded as a
pure function over lists of assets; the compile-time platform facts produced
by get_platform_info (src/main.rs) are passed in as the two canonical tokens
os and arch.  The executable locator (find_executable_recursively and
search_directory, src/unpack.rs; src/main.rs holds an older inline copy of
the same routine without the _temp stripping and without the exact-name
short-circuit) is embedded over an ordered directory-listing tree.  Rust
string methods (contains, starts_with, ends_with, to_lowercase, strip_suffix)
are embedded as character-list functions with the same semantics.
-/

namespace Coolclis

/-! ### String primitives, mirroring the Rust str methods used by the code -/

/-- Rust str::starts_with. -/
def strStartsWith (s pre : String) : Bool := pre.data.isPrefixOf s.data

/-- Rust str::ends_with. -/
def strEndsWith (s suf : String) : Bool := suf.data.isSuffixOf s.data

/-- Helper for strContains: does pat occur as a contiguous run in the list? -/
def strContainsAux (pat : List Char) : List Char → Bool
  | [] => pat.isEmpty
  | c :: rest => pat.isPrefixOf (c :: rest) || strContainsAux pat rest

/-- Rust str::contains with a string pattern (substring occurrence). -/
def strContains (s pat : String) : Bool := strContainsAux pat.data s.data

/-- Rust str::to_lowercase (the names involved are ASCII, where the two agree
character by character). -/
def strToLower (s : String) : String := String.mk (s.data.map Char.toLower)

/-- Rust str::strip_suffix. -/
def rustStripSuffix (s suf : String) : Option String :=
  if strEndsWith s suf then some (String.mk (s.data.take (s.data.length - suf.data.length)))
  else none

/-! ### Data model of a release (struct Asset, struct Release, src/main.rs) -/

/-- struct Asset of src/main.rs: name, browser_download_url, size. -/
structure Asset where
  name : String
  browser_download_url : String
  size : Nat
deriving DecidableEq, Repr

/-! ### The asset resolver (find_appropriate_asset, src/main.rs lines 113-176)

get_platform_info (lines 89-111) evaluates cfg! macros at compile time and
yields the canonical (os, arch) pair; the pair is passed here as arguments so
that every platform combination can be reasoned about. -/

/-- The os_variations vector of find_appropriate_asset (lines 117-121). -/
def osVariations (os : String) : List String :=
  if os = "darwin" then ["darwin", "macos", "mac", "osx"] else [os]

/-- The arch_variations vector of find_appropriate_asset (lines 123-129). -/
def archVariations (arch : String) : List String :=
  if arch = "x86_64" then ["x86_64", "amd64", "x64"]
  else if arch = "arm64" then ["arm64", "aarch64"]
  else [arch]

/-- The search_patterns vector (lines 131-140): for each os variation, for
each arch variation, the three joined forms os-arch, os_arch, osarch are
pushed, and after the arch loop the bare os variation is pushed. -/
def searchPatterns (os arch : String) : List String :=
  (osVariations os).flatMap (fun osv =>
    ((archVariations arch).flatMap (fun av =>
      [osv ++ "-" ++ av, osv ++ "_" ++ av, osv ++ av])) ++ [osv])

/-- The extensions vector (lines 142-147). -/
def extensions (os : String) : List String :=
  if os = "windows" then [".exe", ".zip", ".tar.gz", ".tgz"]
  else ["", ".tar.gz", ".tgz", ".zip"]

/-- The pass-1 condition (line 156): the lowercased asset name contains the
lowercased tool name, contains the pattern, and ends with the extension. -/
def assetMatchesTool (tool pattern ext : String) (a : Asset) : Bool :=
  strContains (strToLower a.name) (strToLower tool) &&
  strContains (strToLower a.name) pattern &&
  strEndsWith (strToLower a.name) ext

/-- The pass-2 condition (line 168): pattern containment and extension only. -/
def assetMatchesPlatform (pattern ext : String) (a : Asset) : Bool :=
  strContains (strToLower a.name) pattern && strEndsWith (strToLower a.name) ext

/-- Pass 1 (lines 149-161): patterns outer, extensions inner, assets
innermost, returning on the first asset satisfying the pass-1 condition. -/
def pass1 (os arch tool : String) (assets : List Asset) : Option Asset :=
  (searchPatterns os arch).findSome? (fun p =>
    (extensions os).findSome? (fun e =>
      assets.find? (assetMatchesTool tool p e)))

/-- Pass 2 (lines 163-173): the same triple loop without the tool name. -/
def pass2 (os arch : String) (assets : List Asset) : Option Asset :=
  (searchPatterns os arch).findSome? (fun p =>
    (extensions os).findSome? (fun e =>
      assets.find? (assetMatchesPlatform p e)))

instance {ε α : Type} [DecidableEq ε] [DecidableEq α] : DecidableEq (Except ε α) := fun x y =>
  match x, y with
  | Except.ok a, Except.ok b =>
      if h : a = b then isTrue (by rw [h]) else isFalse (by intro hh; cases hh; exact h rfl)
  | Except.ok _, Except.error _ => isFalse (by intro hh; cases hh)
  | Except.error _, Except.ok _ => isFalse (by intro hh; cases hh)
  | Except.error e, Except.error f =>
      if h : e = f then isTrue (by rw [h]) else isFalse (by intro hh; cases hh; exact h rfl)

/-- The error message of line 175. -/
def noAssetMsg (os arch : String) : String :=
  "No suitable asset found for your platform (" ++ os ++ "-" ++ arch ++ ")"

/-- find_appropriate_asset (src/main.rs lines 113-176). -/
def find_appropriate_asset (os arch : String) (assets : List Asset)
    (toolName : String) : Except String Asset :=
  match pass1 os arch toolName assets with
  | some a => Except.ok a
  | none =>
    match pass2 os arch assets with
    | some a => Except.ok a
    | none => Except.error (noAssetMsg os arch)

/-- The pass-1 hit obtained at pattern index i: the inner two loops of pass 1
run for the i-th generated pattern. -/
def hitAt (os arch tool : String) (assets : List Asset) (i : Nat) : Option Asset :=
  ((searchPatterns os arch)[i]?).bind (fun p =>
    (extensions os).findSome? (fun e =>
      assets.find? (assetMatchesTool tool p e)))

/-! ### The executable locator (src/unpack.rs)

A directory listing is modelled as an ordered sequence of entries, each a
regular file or a subdirectory with its own listing; the order is the order
fs::read_dir yields the entries.  Paths are lists of components relative to
the locator's root directory. -/

/-- An ordered directory listing: empty, a regular file followed by the rest
of the listing, or a subdirectory (with its own listing) followed by the rest
of the listing. -/
inductive FsDir : Type where
  | nil : FsDir
  | file (name : String) (rest : FsDir) : FsDir
  | subdir (name : String) (sub : FsDir) (rest : FsDir) : FsDir
deriving DecidableEq, Repr

/-- Result of resolving one path component inside a listing, as the code
observes it through exists() / is_dir() / is_file(). -/
inductive Lookup : Type where
  | missing : Lookup
  | foundFile : Lookup
  | foundDir (contents : FsDir) : Lookup
deriving DecidableEq, Repr

/-- dir.join(name) followed by the exists() / is_dir() / is_file() checks:
the entry of the listing carrying that name, if any. -/
def lookupName : FsDir → String → Lookup
  | FsDir.nil, _ => Lookup.missing
  | FsDir.file n rest, m => if n = m then Lookup.foundFile else lookupName rest m
  | FsDir.subdir n sub rest, m => if n = m then Lookup.foundDir sub else lookupName rest m

/-- The names of the regular files directly inside a listing, in listing
order (the subsequence of entries for which is_file() holds). -/
def dirFiles : FsDir → List String
  | FsDir.nil => []
  | FsDir.file n rest => n :: dirFiles rest
  | FsDir.subdir _ _ rest => dirFiles rest

/-- The expected executable name (src/unpack.rs lines 31-35): the directory's
final component with the suffix _temp stripped, or the empty string when the
component does not end in _temp. -/
def exeNameOf (dirName : String) : String :=
  (rustStripSuffix dirName "_temp").getD ""

/-- The bin/ block of find_executable_recursively (lines 37-65): when bin
exists and is a directory, return the first regular file there whose name
equals or starts with the expected name, and otherwise the first regular
file there; when bin holds no regular file, fall through. -/
def binStep (d : FsDir) (exeName : String) : Option (List String) :=
  match lookupName d "bin" with
  | Lookup.foundDir binContents =>
    match (dirFiles binContents).find? (fun n => n == exeName || strStartsWith n exeName) with
    | some n => some ["bin", n]
    | none =>
      match (dirFiles binContents).head? with
      | some n => some ["bin", n]
      | none => none
  | _ => none

/-- The directory-name block (lines 67-72): dir.join(exe_name) must exist and
be a regular file.  When exe_name is empty the joined path is the directory
itself (Rust Path::join with an empty component), which is never a regular
file, so the block cannot fire. -/
def dirNameStep (d : FsDir) (exeName : String) : Option (List String) :=
  if exeName = "" then none
  else
    match lookupName d exeName with
    | Lookup.foundFile => some [exeName]
    | _ => none

/-- The file-name filter of search_directory (src/unpack.rs lines 123-128). -/
def goodFileName (n : String) : Bool :=
  !strStartsWith n "." &&
  !strStartsWith n "LICENSE" &&
  !strStartsWith n "README" &&
  !strContains n ".md" &&
  !strContains n ".txt"

/-- search_directory (src/unpack.rs lines 115-159): depth-first collection of
the regular files passing the name filter, descending into every
subdirectory whose name does not start with a dot (the is-it-bin check of
lines 144-154 runs the same recursion in both branches). -/
def search_directory : FsDir → List (List String)
  | FsDir.nil => []
  | FsDir.file n rest =>
      (if goodFileName n then [[n]] else []) ++ search_directory rest
  | FsDir.subdir n sub rest =>
      (if strStartsWith n "." then []
       else (search_directory sub).map (fun p => n :: p)) ++ search_directory rest

/-- path.file_name() of a candidate path: its final component (candidates
are never empty, the default covers the impossible case like unwrap_or). -/
def lastName (c : List String) : String := (c.getLast?).getD ""

/-- The sort comparator of lines 88-104: names with no dot come first, ties
broken by byte length of the name (Rust str::len). -/
def candCmp (a b : List String) : Ordering :=
  if strContains (lastName a) "." && !(strContains (lastName b) ".") then Ordering.gt
  else if !(strContains (lastName a) ".") && strContains (lastName b) "." then Ordering.lt
  else compare (lastName a).utf8ByteSize (lastName b).utf8ByteSize

/-- Stable insertion of one element into a sorted run: the element passes
over exactly the elements strictly smaller under the comparator, so equal
elements keep their original relative order, as Rust slice::sort_by (a
stable sort) guarantees. -/
def insertCand (x : List String) : List (List String) → List (List String)
  | [] => [x]
  | y :: ys =>
      if candCmp x y = Ordering.gt then y :: insertCand x ys
      else x :: y :: ys

/-- The candidates.sort_by call of lines 88-104: a stable sort under
candCmp (insertion sort is stable, and a stable sort's output is unique for
the total preorder candCmp describes). -/
def sortCands : List (List String) → List (List String)
  | [] => []
  | x :: xs => insertCand x (sortCands xs)

/-- find_executable_recursively (src/unpack.rs lines 30-113): the bin/ block,
then the directory-name block, then the recursive scan with the exact-name
short-circuit of lines 79-85, finally the ranking fallback of lines 87-112.
The make_executable permission side effects do not change the returned path
and are not modelled. -/
def find_executable_recursively (dirName : String) (d : FsDir) : Option (List String) :=
  match binStep d (exeNameOf dirName) with
  | some p => some p
  | none =>
    match dirNameStep d (exeNameOf dirName) with
    | some p => some p
    | none =>
      match (search_directory d).find? (fun c => lastName c == exeNameOf dirName) with
      | some c => some c
      | none => (sortCands (search_directory d)).head?

/-! ### Definitions written from the claims' own words, for comparison -/

/-- Written from the claim: every regular file anywhere in the tree, with no
restriction on which directories the walk may enter. -/
def allFiles : FsDir → List (List String)
  | FsDir.nil => []
  | FsDir.file n rest => [n] :: allFiles rest
  | FsDir.subdir n sub rest => (allFiles sub).map (fun p => n :: p) ++ allFiles rest

/-- Every regular file reachable without entering a directory whose name
starts with a dot (the walk search_directory actually performs, before any
file-name filtering). -/
def visibleFiles : FsDir → List (List String)
  | FsDir.nil => []
  | FsDir.file n rest => [n] :: visibleFiles rest
  | FsDir.subdir n sub rest =>
      (if strStartsWith n "." then [] else (visibleFiles sub).map (fun p => n :: p))
      ++ visibleFiles rest

/-- Well-formedness of a listing: no entry carries the empty name (true of
every real directory tree). -/
def namesNonempty : FsDir → Bool
  | FsDir.nil => true
  | FsDir.file n rest => !(n == "") && namesNonempty rest
  | FsDir.subdir n sub rest => !(n == "") && namesNonempty sub && namesNonempty rest

/-- Written from the claim for C9: the resolver with the extension loop
removed, matching on tool name and pattern alone in pass 1 and on the
pattern alone in pass 2. -/
def resolveIgnoringExtensions (os arch : String) (assets : List Asset)
    (toolName : String) : Except String Asset :=
  match (searchPatterns os arch).findSome? (fun p =>
      assets.find? (fun a =>
        strContains (strToLower a.name) (strToLower toolName) &&
        strContains (strToLower a.name) p)) with
  | some a => Except.ok a
  | none =>
    match (searchPatterns os arch).findSome? (fun p =>
        assets.find? (fun a => strContains (strToLower a.name) p)) with
    | some a => Except.ok a
    | none => Except.error (noAssetMsg os arch)

/-! ### Sample inputs used by concrete instances and witnesses -/

/-- The first P3 asset. -/
def p3AssetA : Asset := { name := "tool-linux-x86_64.tar.gz", browser_download_url := "", size := 0 }

/-- The second P3 asset. -/
def p3AssetB : Asset := { name := "tool-linux-amd64.tar.gz", browser_download_url := "", size := 0 }

/-- A P2 asset matching the platform pattern but not the tool name. -/
def p2AssetOther : Asset := { name := "other-linux-x86_64.tar.gz", browser_download_url := "", size := 0 }

/-- A P2 asset matching the platform pattern and the tool name. -/
def p2AssetTool : Asset := { name := "ripgrep-linux-x86_64.tar.gz", browser_download_url := "", size := 0 }

/-- The P4 asset: a windows build offered to a linux/arm64 platform. -/
def p4Asset : Asset := { name := "tool-windows-x86_64.exe", browser_download_url := "", size := 0 }

/-- An asset with an extension outside the resolver's extension list. -/
def debAsset : Asset := { name := "foo-linux-x86_64.deb", browser_download_url := "", size := 0 }

/-! ### Helper lemmas about the first-match search combinators -/

/-- A findSome? hit comes from the first index whose image is some: every
earlier index maps to none. -/
theorem findSome?_first_index {α β : Type} (f : α → Option β) :
    ∀ (L : List α) (b : β), L.findSome? f = some b →
      ∃ i : Nat, (L[i]?.bind f = some b) ∧ ∀ j : Nat, j < i → L[j]?.bind f = none := by
  intro L
  induction L with
  | nil => intro b h; simp at h
  | cons x xs ih =>
    intro b h
    cases hx : f x with
    | some c =>
      rw [List.findSome?_cons_of_isSome _ (by simp [hx])] at h
      exact ⟨0, by simpa using h, fun j hj => absurd hj (by omega)⟩
    | none =>
      rw [List.findSome?_cons_of_isNone _ (by simp [hx])] at h
      obtain ⟨i, hi, hlt⟩ := ih b h
      refine ⟨i + 1, by simpa using hi, fun j hj => ?_⟩
      cases j with
      | zero => simp [hx]
      | succ k => simpa using hlt k (by omega)

/-- A findSome? hit is the image of some member of the list. -/
theorem findSome?_mem {α β : Type} (f : α → Option β) :
    ∀ (L : List α) (b : β), L.findSome? f = some b → ∃ x ∈ L, f x = some b := by
  intro L
  induction L with
  | nil => intro b h; simp at h
  | cons x xs ih =>
    intro b h
    cases hx : f x with
    | some c =>
      rw [List.findSome?_cons_of_isSome _ (by simp [hx])] at h
      exact ⟨x, by simp, h⟩
    | none =>
      rw [List.findSome?_cons_of_isNone _ (by simp [hx])] at h
      obtain ⟨y, hy, hf⟩ := ih b h
      exact ⟨y, by simp [hy], hf⟩

/-- The pass-1 condition is the pass-2 condition conjoined with tool-name
containment. -/
theorem assetMatchesTool_eq_and (tool p e : String) (a : Asset) :
    assetMatchesTool tool p e a =
      (strContains (strToLower a.name) (strToLower tool) && assetMatchesPlatform p e a) := by
  simp [assetMatchesTool, assetMatchesPlatform, Bool.and_assoc]

/-! ### Claim theorems for the asset resolver -/

/-- C1 counterexample: the generated pattern list on a linux/x86_64 platform
does not contain the reversed arch-os form x86_64-linux that the claim
requires for the pair (linux, x86_64), nor does the darwin/arm64 list
contain aarch64-darwin. -/
theorem searchPatterns_no_reversed_form :
    (searchPatterns "linux" "x86_64").contains "x86_64-linux" = false ∧
    (searchPatterns "darwin" "arm64").contains "aarch64-darwin" = false := by decide

/-- C1 (amended): for each (os_synonym, arch_synonym) pair the resolver
generates the three joined forms os-arch, os_arch and osarch, with no
reversed arch-os form, followed after each os_synonym's pairs by the bare
os_synonym alone; patterns are tried in generation order, and a pass-1 hit
is found at the first pattern index any asset satisfies, every earlier
pattern index yielding no hit at any extension. -/
theorem resolver_pattern_generation_and_precedence
    (os arch tool : String) (assets : List Asset) (a : Asset)
    (h : pass1 os arch tool assets = some a) :
    searchPatterns "linux" "x86_64" =
      ["linux-x86_64", "linux_x86_64", "linuxx86_64",
       "linux-amd64", "linux_amd64", "linuxamd64",
       "linux-x64", "linux_x64", "linuxx64", "linux"] ∧
    searchPatterns "darwin" "arm64" =
      ["darwin-arm64", "darwin_arm64", "darwinarm64",
       "darwin-aarch64", "darwin_aarch64", "darwinaarch64", "darwin",
       "macos-arm64", "macos_arm64", "macosarm64",
       "macos-aarch64", "macos_aarch64", "macosaarch64", "macos",
       "mac-arm64", "mac_arm64", "macarm64",
       "mac-aarch64", "mac_aarch64", "macaarch64", "mac",
       "osx-arm64", "osx_arm64", "osxarm64",
       "osx-aarch64", "osx_aarch64", "osxaarch64", "osx"] ∧
    find_appropriate_asset os arch assets tool = Except.ok a ∧
    ∃ i, hitAt os arch tool assets i = some a ∧
      ∀ j, j < i → hitAt os arch tool assets j = none := by
  refine ⟨by decide, by decide, ?_, ?_⟩
  · unfold find_appropriate_asset
    rw [h]
  · exact findSome?_first_index _ _ _ h

/-- Witness for C1 at the P3 input: on linux/x86_64 with the two P3 assets,
pass 1 hits tool-linux-x86_64.tar.gz, whose pattern linux-x86_64 is generated
first. -/
theorem resolver_pattern_generation_and_precedence_witness :
    searchPatterns "linux" "x86_64" =
      ["linux-x86_64", "linux_x86_64", "linuxx86_64",
       "linux-amd64", "linux_amd64", "linuxamd64",
       "linux-x64", "linux_x64", "linuxx64", "linux"] ∧
    searchPatterns "darwin" "arm64" =
      ["darwin-arm64", "darwin_arm64", "darwinarm64",
       "darwin-aarch64", "darwin_aarch64", "darwinaarch64", "darwin",
       "macos-arm64", "macos_arm64", "macosarm64",
       "macos-aarch64", "macos_aarch64", "macosaarch64", "macos",
       "mac-arm64", "mac_arm64", "macarm64",
       "mac-aarch64", "mac_aarch64", "macaarch64", "mac",
       "osx-arm64", "osx_arm64", "osxarm64",
       "osx-aarch64", "osx_aarch64", "osxaarch64", "osx"] ∧
    find_appropriate_asset "linux" "x86_64" [p3AssetA, p3AssetB] "tool" = Except.ok p3AssetA ∧
    ∃ i, hitAt "linux" "x86_64" "tool" [p3AssetA, p3AssetB] i = some p3AssetA ∧
      ∀ j, j < i → hitAt "linux" "x86_64" "tool" [p3AssetA, p3AssetB] j = none :=
  resolver_pattern_generation_and_precedence "linux" "x86_64" "tool"
    [p3AssetA, p3AssetB] p3AssetA (by decide)

/-- C2 counterexample: the os synonym sets the claim lists are not the ones
the code builds: apple-darwin is missing for darwin, unknown-linux for
linux, pc-windows for windows. -/
theorem platform_synonyms_missing :
    (osVariations "darwin").contains "apple-darwin" = false ∧
    (osVariations "linux").contains "unknown-linux" = false ∧
    (osVariations "windows").contains "pc-windows" = false := by decide

/-- C2 (amended): the os synonyms are darwin, macos, mac, osx for darwin and
the single canonical token for linux, windows and unknown; the arch synonyms
are x86_64, amd64, x64 for x86_64, arm64, aarch64 for arm64 and the single
canonical token otherwise. -/
theorem platform_synonyms_values :
    osVariations "darwin" = ["darwin", "macos", "mac", "osx"] ∧
    osVariations "linux" = ["linux"] ∧
    osVariations "windows" = ["windows"] ∧
    osVariations "unknown" = ["unknown"] ∧
    archVariations "x86_64" = ["x86_64", "amd64", "x64"] ∧
    archVariations "arm64" = ["arm64", "aarch64"] ∧
    archVariations "x86" = ["x86"] ∧
    archVariations "unknown" = ["unknown"] := by decide

/-- C3: when some asset satisfies tool-name containment, some generated
pattern and some listed extension, the resolver succeeds with an asset
satisfying all three; in particular the tool-name-matching P2 asset wins
over an earlier platform-only asset. -/
theorem resolver_tool_pass_complete (os arch tool : String) (assets : List Asset)
    (h : ∃ a ∈ assets, ∃ p ∈ searchPatterns os arch, ∃ e ∈ extensions os,
        assetMatchesTool tool p e a = true) :
    (∃ b ∈ assets, find_appropriate_asset os arch assets tool = Except.ok b ∧
        ∃ p ∈ searchPatterns os arch, ∃ e ∈ extensions os, assetMatchesTool tool p e b = true) ∧
    find_appropriate_asset "linux" "x86_64" [p2AssetOther, p2AssetTool] "ripgrep"
      = Except.ok p2AssetTool := by
  refine ⟨?_, by decide⟩
  have hne : pass1 os arch tool assets ≠ none := by
    intro hn
    rw [pass1, List.findSome?_eq_none_iff] at hn
    obtain ⟨a, ha, p, hp, e, he, hm⟩ := h
    have h1 := hn p hp
    rw [List.findSome?_eq_none_iff] at h1
    have h2 := h1 e he
    rw [List.find?_eq_none] at h2
    exact h2 a ha (by simp [hm])
  cases hb : pass1 os arch tool assets with
  | none => exact absurd hb hne
  | some b =>
    obtain ⟨p, hp, hinner⟩ := findSome?_mem _ _ _ hb
    obtain ⟨e, he, hfind⟩ := findSome?_mem _ _ _ hinner
    refine ⟨b, List.mem_of_find?_eq_some hfind, ?_, p, hp, e, he, List.find?_some hfind⟩
    unfold find_appropriate_asset
    rw [hb]

/-- Witness for C3 at the P2 input. -/
theorem resolver_tool_pass_complete_witness :
    (∃ b ∈ [p2AssetOther, p2AssetTool],
        find_appropriate_asset "linux" "x86_64" [p2AssetOther, p2AssetTool] "ripgrep"
          = Except.ok b ∧
        ∃ p ∈ searchPatterns "linux" "x86_64", ∃ e ∈ extensions "linux",
          assetMatchesTool "ripgrep" p e b = true) ∧
    find_appropriate_asset "linux" "x86_64" [p2AssetOther, p2AssetTool] "ripgrep"
      = Except.ok p2AssetTool :=
  resolver_tool_pass_complete "linux" "x86_64" "ripgrep" [p2AssetOther, p2AssetTool]
    ⟨p2AssetTool, by decide, "linux-x86_64", by decide, "", by decide, by decide⟩

/-- C8: when no asset satisfies any generated pattern together with any
listed extension, both passes fail and the resolver reports the
no-suitable-asset error naming the canonical os and arch tokens; in
particular the P4 input yields the error naming linux-arm64. -/
theorem resolver_no_match_error (os arch tool : String) (assets : List Asset)
    (h : ∀ a ∈ assets, ∀ p ∈ searchPatterns os arch, ∀ e ∈ extensions os,
        assetMatchesPlatform p e a = false) :
    find_appropriate_asset os arch assets tool = Except.error (noAssetMsg os arch) ∧
    noAssetMsg "linux" "arm64" = "No suitable asset found for your platform (linux-arm64)" ∧
    find_appropriate_asset "linux" "arm64" [p4Asset] "tool"
      = Except.error "No suitable asset found for your platform (linux-arm64)" := by
  refine ⟨?_, by decide, by decide⟩
  have h1 : pass1 os arch tool assets = none := by
    rw [pass1, List.findSome?_eq_none_iff]
    intro p hp
    rw [List.findSome?_eq_none_iff]
    intro e he
    rw [List.find?_eq_none]
    intro a ha
    simp [assetMatchesTool_eq_and, h a ha p hp e he]
  have h2 : pass2 os arch assets = none := by
    rw [pass2, List.findSome?_eq_none_iff]
    intro p hp
    rw [List.findSome?_eq_none_iff]
    intro e he
    rw [List.find?_eq_none]
    intro a ha
    simp [h a ha p hp e he]
  unfold find_appropriate_asset
  rw [h1, h2]

/-- Witness for C8 at the P4 input. -/
theorem resolver_no_match_error_witness :
    find_appropriate_asset "linux" "arm64" [p4Asset] "tool"
      = Except.error (noAssetMsg "linux" "arm64") ∧
    noAssetMsg "linux" "arm64" = "No suitable asset found for your platform (linux-arm64)" ∧
    find_appropriate_asset "linux" "arm64" [p4Asset] "tool"
      = Except.error "No suitable asset found for your platform (linux-arm64)" :=
  resolver_no_match_error "linux" "arm64" "tool" [p4Asset] (by decide)

/-- On a non-windows platform the extension loop is inert: its first
iteration uses the empty extension, which every name ends with, so the loop
returns exactly what a single search without the extension conjunct would. -/
theorem extLoop_collapse (os : String) (hos : os ≠ "windows") (q : Asset → Bool)
    (assets : List Asset) :
    (extensions os).findSome? (fun e =>
        assets.find? (fun a => q a && strEndsWith (strToLower a.name) e))
      = assets.find? q := by
  have hext : extensions os = ["", ".tar.gz", ".tgz", ".zip"] := by
    simp [extensions, hos]
  have h0 : (fun a => q a && strEndsWith (strToLower a.name) "") = q := by
    funext a
    simp [strEndsWith]
  cases hq : assets.find? q with
  | some b =>
    rw [hext, List.findSome?_cons_of_isSome]
    · rw [h0, hq]
    · rw [h0, hq]; rfl
  | none =>
    have hall : ∀ a ∈ assets, q a = false := by
      rw [List.find?_eq_none] at hq
      intro a ha
      simpa using hq a ha
    have hnone : ∀ e, assets.find? (fun a => q a && strEndsWith (strToLower a.name) e) = none := by
      intro e
      rw [List.find?_eq_none]
      intro a ha
      simp [hall a ha]
    rw [hext, List.findSome?_eq_none_iff]
    intro e _
    exact hnone e

/-- Pass 1 with the extension loop collapsed away, on non-windows. -/
theorem pass1_collapse (os arch tool : String) (assets : List Asset) (hos : os ≠ "windows") :
    pass1 os arch tool assets
      = (searchPatterns os arch).findSome? (fun p =>
          assets.find? (fun a =>
            strContains (strToLower a.name) (strToLower tool) &&
            strContains (strToLower a.name) p)) := by
  unfold pass1
  congr 1
  funext p
  have hpred : (fun e => assets.find? (assetMatchesTool tool p e))
      = (fun e => assets.find? (fun a =>
          (strContains (strToLower a.name) (strToLower tool) &&
           strContains (strToLower a.name) p) && strEndsWith (strToLower a.name) e)) := by
    funext e
    congr 1
  rw [hpred, extLoop_collapse os hos]

/-- Pass 2 with the extension loop collapsed away, on non-windows. -/
theorem pass2_collapse (os arch : String) (assets : List Asset) (hos : os ≠ "windows") :
    pass2 os arch assets
      = (searchPatterns os arch).findSome? (fun p =>
          assets.find? (fun a => strContains (strToLower a.name) p)) := by
  unfold pass2
  congr 1
  funext p
  have hpred : (fun e => assets.find? (assetMatchesPlatform p e))
      = (fun e => assets.find? (fun a =>
          strContains (strToLower a.name) p && strEndsWith (strToLower a.name) e)) := by
    funext e
    congr 1
  rw [hpred, extLoop_collapse os hos]

/-- C9: on non-windows platforms the extension list starts with the empty
string, every name ends with the empty string, the whole resolver coincides
with the resolver that ignores extensions entirely (so the listed order
.tar.gz, .tgz, .zip never influences selection), and an asset with an
unlisted extension such as .deb is selected. -/
theorem resolver_extension_indifferent :
    (∀ os : String, os ≠ "windows" → extensions os = ["", ".tar.gz", ".tgz", ".zip"]) ∧
    (∀ s : String, strEndsWith s "" = true) ∧
    (∀ (os arch tool : String) (assets : List Asset), os ≠ "windows" →
        find_appropriate_asset os arch assets tool
          = resolveIgnoringExtensions os arch assets tool) ∧
    find_appropriate_asset "linux" "x86_64" [debAsset] "foo" = Except.ok debAsset := by
  refine ⟨?_, ?_, ?_, by decide⟩
  · intro os hos
    simp [extensions, hos]
  · intro s
    simp [strEndsWith]
  · intro os arch tool assets hos
    unfold find_appropriate_asset resolveIgnoringExtensions
    rw [pass1_collapse os arch tool assets hos, pass2_collapse os arch assets hos]

/-! ### Helper lemmas about the executable locator -/

/-- The bin/ block returns some file of bin/ whenever bin/ exists as a
directory and holds at least one regular file. -/
theorem binStep_spec (d : FsDir) (exeName : String) (binContents : FsDir)
    (hbin : lookupName d "bin" = Lookup.foundDir binContents)
    (hfile : dirFiles binContents ≠ []) :
    ∃ n ∈ dirFiles binContents, binStep d exeName = some ["bin", n] ∧
      ((dirFiles binContents).find? (fun m => m == exeName || strStartsWith m exeName) = some n ∨
       ((dirFiles binContents).find? (fun m => m == exeName || strStartsWith m exeName) = none ∧
        (dirFiles binContents).head? = some n)) := by
  simp only [binStep, hbin]
  cases hf : (dirFiles binContents).find? (fun n => n == exeName || strStartsWith n exeName) with
  | some n =>
    simp only [hf]
    exact ⟨n, List.mem_of_find?_eq_some hf, rfl, Or.inl rfl⟩
  | none =>
    simp only [hf]
    cases hd : dirFiles binContents with
    | nil => exact absurd hd hfile
    | cons m rest =>
      exact ⟨m, List.mem_cons_self m rest, rfl, Or.inr ⟨trivial, rfl⟩⟩

/-- No path produced by the unfiltered walk is empty. -/
theorem visibleFiles_ne_nil : ∀ (d : FsDir) (c : List String), c ∈ visibleFiles d → c ≠ [] := by
  intro d
  induction d with
  | nil => intro c hc; simp [visibleFiles] at hc
  | file n rest ih =>
    intro c hc
    rcases List.mem_cons.mp hc with rfl | hc
    · simp
    · exact ih c hc
  | subdir n sub rest ihs ihr =>
    intro c hc
    rcases List.mem_append.mp hc with hc | hc
    · by_cases hdot : strStartsWith n "." = true
      · simp [visibleFiles, hdot] at hc
      · simp only [visibleFiles, if_neg hdot] at hc
        obtain ⟨p, _, rfl⟩ := List.mem_map.mp hc
        simp
    · exact ihr c hc

/-- file_name of a path does not change when a parent component is added. -/
theorem lastName_cons (n : String) (p : List String) (h : p ≠ []) :
    lastName (n :: p) = lastName p := by
  cases p with
  | nil => exact absurd rfl h
  | cons q r => simp [lastName]

/-- search_directory is the walk through non-dot directories followed by the
file-name filter. -/
theorem search_directory_eq_filter : ∀ d : FsDir,
    search_directory d = (visibleFiles d).filter (fun c => goodFileName (lastName c)) := by
  intro d
  induction d with
  | nil => rfl
  | file n rest ih =>
    have hn : lastName [n] = n := by simp [lastName]
    simp only [search_directory, visibleFiles, List.filter_cons, hn, ih]
    by_cases hg : goodFileName n = true <;> simp [hg]
  | subdir n sub rest ihs ihr =>
    simp only [search_directory, visibleFiles, List.filter_append, ihr]
    by_cases hdot : strStartsWith n "." = true
    · simp [hdot]
    · simp only [if_neg hdot]
      congr 1
      rw [List.filter_map, ihs]
      have hcongr : (visibleFiles sub).filter ((fun c => goodFileName (lastName c)) ∘ (fun p => n :: p))
          = (visibleFiles sub).filter (fun c => goodFileName (lastName c)) := by
        apply List.filter_congr
        intro p hp
        simp only [Function.comp]
        rw [lastName_cons n p (visibleFiles_ne_nil sub p hp)]
      rw [hcongr]

/-- No candidate collected by search_directory is the empty path. -/
theorem search_directory_ne_nil (d : FsDir) (c : List String)
    (hc : c ∈ search_directory d) : c ≠ [] := by
  rw [search_directory_eq_filter] at hc
  exact visibleFiles_ne_nil d c (List.mem_of_mem_filter hc)

/-- In a tree with no empty entry name, no candidate has an empty file name. -/
theorem search_directory_names_nonempty : ∀ d : FsDir, namesNonempty d = true →
    ∀ c ∈ search_directory d, lastName c ≠ "" := by
  intro d
  induction d with
  | nil => intro _ c hc; simp [search_directory] at hc
  | file n rest ih =>
    intro hwf c hc
    simp only [namesNonempty, Bool.and_eq_true, Bool.not_eq_true'] at hwf
    obtain ⟨hn, hrest⟩ := hwf
    rcases List.mem_append.mp hc with hc | hc
    · by_cases hg : goodFileName n = true
      · simp only [search_directory, if_pos hg, List.mem_singleton] at hc
        subst hc
        simpa [lastName] using (by simpa using hn : n ≠ "")
      · simp [if_neg hg] at hc
    · exact ih hrest c hc
  | subdir n sub rest ihs ihr =>
    intro hwf c hc
    simp only [namesNonempty, Bool.and_eq_true, Bool.not_eq_true'] at hwf
    obtain ⟨⟨hn, hsub⟩, hrest⟩ := hwf
    rcases List.mem_append.mp hc with hc | hc
    · by_cases hdot : strStartsWith n "." = true
      · simp [hdot] at hc
      · simp only [if_neg hdot] at hc
        obtain ⟨p, hp, rfl⟩ := List.mem_map.mp hc
        rw [lastName_cons n p (search_directory_ne_nil sub p hp)]
        exact ihs hsub p hp
    · exact ihr hrest c hc

/-- The comparator never ranks an element strictly above itself. -/
theorem candCmp_self_not_gt (a : List String) : candCmp a a ≠ Ordering.gt := by
  simp only [candCmp]
  cases hx : strContains (lastName a) "." <;>
    simp [Nat.compare_ne_gt]

/-- The comparator is asymmetric on its strict part. -/
theorem candCmp_gt_asymm (a b : List String) (h : candCmp a b = Ordering.gt) :
    candCmp b a ≠ Ordering.gt := by
  simp only [candCmp] at h ⊢
  cases hx : strContains (lastName a) "." <;> cases hy : strContains (lastName b) "." <;>
    simp [hx, hy, Nat.compare_eq_gt, Nat.compare_ne_gt] at h ⊢ <;> omega

/-- The at-most relation induced by the comparator is transitive. -/
theorem candCmp_not_gt_trans (a b c : List String)
    (h1 : candCmp a b ≠ Ordering.gt) (h2 : candCmp b c ≠ Ordering.gt) :
    candCmp a c ≠ Ordering.gt := by
  simp only [candCmp] at h1 h2 ⊢
  cases hx : strContains (lastName a) "." <;> cases hy : strContains (lastName b) "." <;>
    cases hz : strContains (lastName c) "." <;>
    simp [hx, hy, hz, Nat.compare_ne_gt] at h1 h2 ⊢ <;> omega

/-- Membership in an insertion. -/
theorem insertCand_mem (x y : List String) : ∀ l, y ∈ insertCand x l ↔ y = x ∨ y ∈ l := by
  intro l
  induction l with
  | nil => simp [insertCand]
  | cons z zs ih =>
    unfold insertCand
    by_cases h : candCmp x z = Ordering.gt
    · simp only [if_pos h, List.mem_cons, ih]
      tauto
    · simp [if_neg h]

/-- Insertion grows the length by one. -/
theorem insertCand_length (x : List String) : ∀ l, (insertCand x l).length = l.length + 1 := by
  intro l
  induction l with
  | nil => rfl
  | cons z zs ih =>
    unfold insertCand
    by_cases h : candCmp x z = Ordering.gt <;> simp [h, ih]

/-- The sort is a permutation in length. -/
theorem sortCands_length : ∀ l : List (List String), (sortCands l).length = l.length := by
  intro l
  induction l with
  | nil => rfl
  | cons x xs ih => simp [sortCands, insertCand_length, ih]

/-- The head of the sorted candidate list is a member of the original list
and at most every member under the comparator. -/
theorem sortCands_head_min : ∀ (l : List (List String)) (c : List String),
    (sortCands l).head? = some c → c ∈ l ∧ ∀ d ∈ l, candCmp c d ≠ Ordering.gt := by
  intro l
  induction l with
  | nil => intro c h; simp [sortCands] at h
  | cons x xs ih =>
    intro c h
    rw [show sortCands (x :: xs) = insertCand x (sortCands xs) from rfl] at h
    cases hs : sortCands xs with
    | nil =>
      have hxs : xs = [] := by
        have hlen := sortCands_length xs
        rw [hs] at hlen
        exact List.length_eq_zero.mp hlen.symm
      rw [hs] at h
      simp only [insertCand, List.head?_cons, Option.some.injEq] at h
      rw [h.symm]
      subst hxs
      refine ⟨List.mem_singleton_self x, ?_⟩
      intro d hd
      rcases List.mem_cons.mp hd with rfl | hdx
      · exact candCmp_self_not_gt d
      · simp at hdx
    | cons y ys =>
      have hy := ih y (by rw [hs]; rfl)
      rw [hs] at h
      unfold insertCand at h
      by_cases hgt : candCmp x y = Ordering.gt
      · rw [if_pos hgt] at h
        simp only [List.head?_cons, Option.some.injEq] at h
        rw [h.symm]
        refine ⟨List.mem_cons_of_mem x hy.1, ?_⟩
        intro d hd
        rcases List.mem_cons.mp hd with rfl | hdx
        · exact candCmp_gt_asymm d y hgt
        · exact hy.2 d hdx
      · rw [if_neg hgt] at h
        simp only [List.head?_cons, Option.some.injEq] at h
        rw [h.symm]
        refine ⟨List.mem_cons_self x xs, ?_⟩
        intro d hd
        rcases List.mem_cons.mp hd with rfl | hdx
        · exact candCmp_self_not_gt d
        · exact candCmp_not_gt_trans x y d hgt (hy.2 d hdx)

/-! ### Claim theorems for the executable locator -/

/-- C4: when bin/ exists as a directory and holds at least one regular file,
the locator returns a path inside bin/ (so never a file outside bin/) whose
file is the first one of bin/ whose name equals or starts with the expected
tool name when such a file exists, and otherwise the first file of bin/ in
listing order; in particular a tree with bin/tool and a top-level tool-v2
yields bin/tool. -/
theorem locator_bin_priority (dirName : String) (d : FsDir) (binContents : FsDir)
    (hbin : lookupName d "bin" = Lookup.foundDir binContents)
    (hfile : dirFiles binContents ≠ []) :
    (∃ n ∈ dirFiles binContents, find_executable_recursively dirName d = some ["bin", n] ∧
      ((dirFiles binContents).find?
          (fun m => m == exeNameOf dirName || strStartsWith m (exeNameOf dirName)) = some n ∨
       ((dirFiles binContents).find?
          (fun m => m == exeNameOf dirName || strStartsWith m (exeNameOf dirName)) = none ∧
        (dirFiles binContents).head? = some n))) ∧
    find_executable_recursively "tool_temp"
      (FsDir.subdir "bin" (FsDir.file "tool" FsDir.nil) (FsDir.file "tool-v2" FsDir.nil))
      = some ["bin", "tool"] := by
  refine ⟨?_, by decide⟩
  obtain ⟨n, hn, hstep, hwhich⟩ := binStep_spec d (exeNameOf dirName) binContents hbin hfile
  refine ⟨n, hn, ?_, hwhich⟩
  unfold find_executable_recursively
  rw [hstep]

/-- Witness for C4 at the P5 tree. -/
theorem locator_bin_priority_witness :
    (∃ n ∈ dirFiles (FsDir.file "tool" FsDir.nil),
        find_executable_recursively "tool_temp"
          (FsDir.subdir "bin" (FsDir.file "tool" FsDir.nil) (FsDir.file "tool-v2" FsDir.nil))
          = some ["bin", n] ∧
        ((dirFiles (FsDir.file "tool" FsDir.nil)).find?
            (fun m => m == exeNameOf "tool_temp" || strStartsWith m (exeNameOf "tool_temp"))
            = some n ∨
         ((dirFiles (FsDir.file "tool" FsDir.nil)).find?
            (fun m => m == exeNameOf "tool_temp" || strStartsWith m (exeNameOf "tool_temp"))
            = none ∧
          (dirFiles (FsDir.file "tool" FsDir.nil)).head? = some n))) ∧
    find_executable_recursively "tool_temp"
      (FsDir.subdir "bin" (FsDir.file "tool" FsDir.nil) (FsDir.file "tool-v2" FsDir.nil))
      = some ["bin", "tool"] :=
  locator_bin_priority "tool_temp"
    (FsDir.subdir "bin" (FsDir.file "tool" FsDir.nil) (FsDir.file "tool-v2" FsDir.nil))
    (FsDir.file "tool" FsDir.nil) (by decide) (by decide)

/-- C5: when the bin/ block and the directory-name block both fail and some
collected candidate's file name equals the expected tool name, the locator
returns the first such candidate, the one the find call yields, before any
ranking sort is applied. -/
theorem locator_exact_name_short_circuit (dirName : String) (d : FsDir)
    (h1 : binStep d (exeNameOf dirName) = none)
    (h2 : dirNameStep d (exeNameOf dirName) = none)
    (h3 : ∃ c ∈ search_directory d, lastName c = exeNameOf dirName) :
    ∃ c, find_executable_recursively dirName d = some c ∧
      lastName c = exeNameOf dirName ∧ c ∈ search_directory d ∧
      (search_directory d).find? (fun x => lastName x == exeNameOf dirName) = some c := by
  obtain ⟨c0, hc0, hn0⟩ := h3
  have hsome : ((search_directory d).find? (fun x => lastName x == exeNameOf dirName)).isSome := by
    rw [List.find?_isSome]
    exact ⟨c0, hc0, by simp [hn0]⟩
  cases hf : (search_directory d).find? (fun x => lastName x == exeNameOf dirName) with
  | none => rw [hf] at hsome; simp at hsome
  | some c =>
    refine ⟨c, ?_, ?_, List.mem_of_find?_eq_some hf, rfl⟩
    · unfold find_executable_recursively
      rw [h1, h2, hf]
    · have := List.find?_some hf
      simpa using this

/-- Witness for C5: a nested tree where the ranking sort would prefer the
shorter name aa, yet the exact-name candidate mytool is returned. -/
theorem locator_exact_name_short_circuit_witness :
    ∃ c, find_executable_recursively "mytool_temp"
        (FsDir.subdir "sub" (FsDir.file "aa" (FsDir.file "mytool" FsDir.nil)) FsDir.nil)
        = some c ∧
      lastName c = exeNameOf "mytool_temp" ∧
      c ∈ search_directory
        (FsDir.subdir "sub" (FsDir.file "aa" (FsDir.file "mytool" FsDir.nil)) FsDir.nil) ∧
      (search_directory
        (FsDir.subdir "sub" (FsDir.file "aa" (FsDir.file "mytool" FsDir.nil)) FsDir.nil)).find?
          (fun x => lastName x == exeNameOf "mytool_temp") = some c :=
  locator_exact_name_short_circuit "mytool_temp"
    (FsDir.subdir "sub" (FsDir.file "aa" (FsDir.file "mytool" FsDir.nil)) FsDir.nil)
    (by decide) (by decide) ⟨["sub", "mytool"], by decide, by decide⟩

/-- C6: with the earlier blocks failed and no exact-name candidate, the
locator returns none on an empty candidate set, and otherwise a candidate
that is minimal under the comparator (extensionless first, then shorter
name); on the P7 tree the result is abc. -/
theorem locator_ranking_fallback (dirName : String) (d : FsDir)
    (h1 : binStep d (exeNameOf dirName) = none)
    (h2 : dirNameStep d (exeNameOf dirName) = none)
    (h3 : (search_directory d).find? (fun c => lastName c == exeNameOf dirName) = none) :
    (search_directory d = [] → find_executable_recursively dirName d = none) ∧
    (∀ c, find_executable_recursively dirName d = some c →
        c ∈ search_directory d ∧ ∀ e ∈ search_directory d, candCmp c e ≠ Ordering.gt) ∧
    (search_directory d ≠ [] → ∃ c, find_executable_recursively dirName d = some c) ∧
    find_executable_recursively "work"
      (FsDir.file "notes.txt" (FsDir.file "abc" (FsDir.file "abcdef" FsDir.nil)))
      = some ["abc"] := by
  have hre : find_executable_recursively dirName d
      = (sortCands (search_directory d)).head? := by
    unfold find_executable_recursively
    rw [h1, h2, h3]
  refine ⟨?_, ?_, ?_, by decide⟩
  · intro he
    rw [hre, he]
    rfl
  · intro c hc
    rw [hre] at hc
    exact sortCands_head_min _ c hc
  · intro hne
    rw [hre]
    cases hs : sortCands (search_directory d) with
    | nil =>
      have hlen := sortCands_length (search_directory d)
      rw [hs] at hlen
      exact absurd (List.length_eq_zero.mp hlen.symm) hne
    | cons y ys => exact ⟨y, rfl⟩

/-- Witness for C6 at the P7 tree: notes.txt is excluded, abc and abcdef are
the candidates, abc is returned. -/
theorem locator_ranking_fallback_witness :
    (search_directory (FsDir.file "notes.txt" (FsDir.file "abc" (FsDir.file "abcdef" FsDir.nil)))
        = [] →
      find_executable_recursively "work"
        (FsDir.file "notes.txt" (FsDir.file "abc" (FsDir.file "abcdef" FsDir.nil))) = none) ∧
    (∀ c, find_executable_recursively "work"
          (FsDir.file "notes.txt" (FsDir.file "abc" (FsDir.file "abcdef" FsDir.nil))) = some c →
        c ∈ search_directory
            (FsDir.file "notes.txt" (FsDir.file "abc" (FsDir.file "abcdef" FsDir.nil))) ∧
        ∀ e ∈ search_directory
            (FsDir.file "notes.txt" (FsDir.file "abc" (FsDir.file "abcdef" FsDir.nil))),
          candCmp c e ≠ Ordering.gt) ∧
    (search_directory (FsDir.file "notes.txt" (FsDir.file "abc" (FsDir.file "abcdef" FsDir.nil)))
        ≠ [] →
      ∃ c, find_executable_recursively "work"
        (FsDir.file "notes.txt" (FsDir.file "abc" (FsDir.file "abcdef" FsDir.nil))) = some c) ∧
    find_executable_recursively "work"
      (FsDir.file "notes.txt" (FsDir.file "abc" (FsDir.file "abcdef" FsDir.nil)))
      = some ["abc"] :=
  locator_ranking_fallback "work"
    (FsDir.file "notes.txt" (FsDir.file "abc" (FsDir.file "abcdef" FsDir.nil)))
    (by decide) (by decide) (by decide)

/-- C7 counterexample: a regular file with an eligible name inside a
dot-named directory is collected by the walk the claim describes but not by
search_directory, which never descends into dot-named directories. -/
theorem search_directory_skips_dot_dirs :
    search_directory (FsDir.subdir ".git" (FsDir.file "tool2" FsDir.nil) FsDir.nil) = [] ∧
    (allFiles (FsDir.subdir ".git" (FsDir.file "tool2" FsDir.nil) FsDir.nil)).filter
      (fun c => goodFileName (lastName c)) = [[".git", "tool2"]] := by decide

/-- C7 (amended): the recursive candidate scan collects exactly the regular
files reachable without entering a directory whose name starts with a dot,
whose names do not start with a dot, LICENSE or README and contain neither
.md nor .txt; a directory named bin is traversed like any other; a tree with
only README.md, LICENSE and the extensionless mytool yields mytool. -/
theorem search_directory_characterization :
    (∀ d : FsDir,
        search_directory d = (visibleFiles d).filter (fun c => goodFileName (lastName c))) ∧
    find_executable_recursively "work"
      (FsDir.file "README.md" (FsDir.file "LICENSE" (FsDir.file "mytool" FsDir.nil)))
      = some ["mytool"] :=
  ⟨search_directory_eq_filter, by decide⟩

/-- C10: for a directory whose final component does not end in _temp, the
derived expected name is empty; then the bin/ block accepts the first
regular file of bin/ unconditionally, the directory-name block cannot fire
(joining with the empty name denotes the directory itself), and the
exact-name short-circuit never fires in a tree without empty names. -/
theorem locator_empty_exe_name (dirName : String) (d : FsDir)
    (hsuf : strEndsWith dirName "_temp" = false)
    (hwf : namesNonempty d = true) :
    exeNameOf dirName = "" ∧
    (∀ binContents : FsDir, lookupName d "bin" = Lookup.foundDir binContents →
        binStep d (exeNameOf dirName)
          = ((dirFiles binContents).head?).map (fun n => ["bin", n])) ∧
    dirNameStep d (exeNameOf dirName) = none ∧
    (search_directory d).find? (fun c => lastName c == exeNameOf dirName) = none := by
  have hexe : exeNameOf dirName = "" := by
    simp [exeNameOf, rustStripSuffix, hsuf]
  refine ⟨hexe, ?_, ?_, ?_⟩
  · intro binContents hb
    rw [hexe]
    simp only [binStep, hb]
    have hpred : (fun n : String => n == "" || strStartsWith n "") = (fun _ => true) := by
      funext n
      simp [strStartsWith]
    rw [hpred]
    cases hfl : dirFiles binContents with
    | nil => rfl
    | cons m rest => rfl
  · rw [hexe]
    simp [dirNameStep]
  · rw [hexe, List.find?_eq_none]
    intro c hc
    simpa using search_directory_names_nonempty d hwf c hc

/-- Witness for C10 on a concrete tree without a _temp suffix. -/
theorem locator_empty_exe_name_witness :
    exeNameOf "somedir" = "" ∧
    (∀ binContents : FsDir,
        lookupName (FsDir.subdir "bin" (FsDir.file "runme" FsDir.nil)
          (FsDir.file "data.bin" FsDir.nil)) "bin" = Lookup.foundDir binContents →
        binStep (FsDir.subdir "bin" (FsDir.file "runme" FsDir.nil)
          (FsDir.file "data.bin" FsDir.nil)) (exeNameOf "somedir")
          = ((dirFiles binContents).head?).map (fun n => ["bin", n])) ∧
    dirNameStep (FsDir.subdir "bin" (FsDir.file "runme" FsDir.nil)
      (FsDir.file "data.bin" FsDir.nil)) (exeNameOf "somedir") = none ∧
    (search_directory (FsDir.subdir "bin" (FsDir.file "runme" FsDir.nil)
      (FsDir.file "data.bin" FsDir.nil))).find?
        (fun c => lastName c == exeNameOf "somedir") = none :=
  locator_empty_exe_name "somedir"
    (FsDir.subdir "bin" (FsDir.file "runme" FsDir.nil) (FsDir.file "data.bin" FsDir.nil))
    (by decide) (by decide)

end Coolclis
